import Mathlib

/-!
Verification of the 1000genome-MPI individuals pipeline.

This file gives a shallow embedding of the pure computational core of
`bin/individuals_mpi_proper.py` (whose processing loop is shared verbatim by
`bin/individuals_mpi_fixed.py`; `bin/individuals_mpi_debug.py` differs only in
the allele-frequency fallback, which is embedded separately), and proves the
specified properties of the partition → filter → gather pipeline.

Modelling conventions:
* Python strings are embedded as `List Char` (`Str`), so that `str.split`,
  `startswith`, membership, slicing and concatenation have direct structural
  counterparts.
* Python `float` values produced by parsing decimal literals are embedded
  exactly as decimal-scaled integers (`DecFloat`, value `mantissa / 10 ^ exp`),
  with `Rat` used for the threshold comparison.  This is exact for every
  decimal literal; IEEE-754 rounding at 17+ significant digits is the only
  idealisation.
* File reading, MPI transport and logging are external collaborators; the
  worker is embedded as a pure function from the file contents (list of raw
  lines) and the split header columns to its contribution, and the merger as a
  pure function from the rank-ordered list of received contributions.
-/

namespace Genome

/-- Python strings, embedded as lists of characters. -/
abbrev Str := List Char

/-- Python `s.split(sep)` for a one-character separator: splits at every
occurrence of `sep`, keeping empty segments, and returns `[s]` (never `[]`)
when `sep` does not occur. -/
def pySplit (sep : Char) : Str → List Str
  | [] => [[]]
  | c :: cs =>
    if c = sep then
      [] :: pySplit sep cs
    else
      match pySplit sep cs with
      | [] => [[c]]
      | h :: t => (c :: h) :: t

/-- Embedding of the comment test `re.compile('(?!#)').match(line)` failing:
a line is a comment (and is dropped) exactly when its first character is `#`. -/
def isComment : Str → Bool
  | '#' :: _ => true
  | _ => false

/-- Python `line.rstrip('\n')`: removes every trailing newline character. -/
def rstripNl (s : Str) : Str :=
  (s.reverse.dropWhile (fun c => c = '\n')).reverse

/-- Python slice-index semantics: a negative index counts from the end of the
sequence, and the result is clamped to `[0, n]`. -/
def pyIdx (n : Nat) (i : Int) : Nat :=
  (min (max (if i < 0 then i + n else i) 0) (n : Int)).toNat

/-- Python `l[a:b]` (step 1) on a list. -/
def pySlice (l : List α) (a b : Int) : List α :=
  (l.take (pyIdx l.length b)).drop (pyIdx l.length a)

/-- Exact value of a Python float obtained from a decimal literal:
`mantissa / 10 ^ exp`.  Kept normalised (no trailing decimal zeros) so that
equal float values print identically, as CPython's `str` does. -/
structure DecFloat where
  mantissa : Int
  exp : Nat
deriving DecidableEq, Repr

/-- Rational value of a `DecFloat`. -/
def DecFloat.toRat (f : DecFloat) : ℚ :=
  (f.mantissa : ℚ) / (10 : ℚ) ^ f.exp

/-- Strip trailing decimal zeros from a scaled-integer representation:
`normAux m e` divides `m` by 10 while the scale `e` lasts and 10 divides `m`. -/
def normAux : Int → Nat → Int × Nat
  | m, 0 => (m, 0)
  | m, e + 1 => if m % 10 = 0 then normAux (m / 10) e else (m, e + 1)

/-- Numeric value of a list of decimal digit characters. -/
def digitsToNat (ds : Str) : Nat :=
  ds.foldl (fun n c => 10 * n + (c.toNat - '0'.toNat)) 0

/-- Build the normalised `DecFloat` for sign `sign`, integer digits `ip` and
fractional digits `fp`. -/
def mkDec (sign : Int) (ip fp : Str) : DecFloat :=
  let m := sign * (digitsToNat (ip ++ fp) : Int)
  let p := normAux m fp.length
  ⟨p.1, p.2⟩

/-- Embedding of Python `float(s)` on plain decimal literals
(`[+-]? digits [. digits]` with at least one digit): `none` models the
`ValueError` that the scripts catch and turn into a per-line skip.
Exponent forms, `inf`/`nan` and surrounding whitespace — which never occur in
the `AF=` annotations this pipeline parses — are not modelled. -/
def parseFloat (s : Str) : Option DecFloat :=
  let sr : Int × Str :=
    match s with
    | '-' :: r => (-1, r)
    | '+' :: r => (1, r)
    | r => (1, r)
  let ip := sr.2.takeWhile Char.isDigit
  let r2 := sr.2.dropWhile Char.isDigit
  match r2 with
  | [] => if ip.isEmpty then none else some (mkDec sr.1 ip [])
  | '.' :: r3 =>
      let fp := r3.takeWhile Char.isDigit
      let r4 := r3.dropWhile Char.isDigit
      if r4.isEmpty && !(ip.isEmpty && fp.isEmpty) then some (mkDec sr.1 ip fp)
      else none
  | _ => none

/-- Embedding of Python `str(f)` for a (normalised) decimal float value:
digits with an explicit decimal point, `x.0` for integral values, and a `-`
sign for negative ones. -/
def decStr (f : DecFloat) : Str :=
  let ds := Nat.toDigits 10 f.mantissa.natAbs
  let ds := if ds.length ≤ f.exp then List.replicate (f.exp + 1 - ds.length) '0' ++ ds else ds
  let ipart := ds.take (ds.length - f.exp)
  let fpart := ds.drop (ds.length - f.exp)
  (if f.mantissa < 0 then ['-'] else []) ++ ipart ++ '.' :: (if f.exp = 0 then ['0'] else fpart)

/-- Raw allele-frequency text selected from an INFO annotation by
`individuals_mpi_proper.py` lines 152-165 (identically `individuals_mpi_fixed.py`
lines 154-167): scan the `;`-separated components for the first one starting
with `AF=` and take `part.split('=')[1]`; otherwise fall back to component
index 8, used only when it exists and contains `=`. -/
def afRaw (info : Str) : Option Str :=
  let parts := pySplit ';' info
  match parts.find? (fun p => ("AF=".data).isPrefixOf p) with
  | some p => some ((pySplit '=' p).getD 1 [])
  | none =>
      if decide (8 < parts.length) && (parts.getD 8 []).contains '=' then
        some ((pySplit '=' (parts.getD 8 [])).getD 1 [])
      else none

/-- Fallback variant of `individuals_mpi_debug.py` lines 176-181: unlike the
proper and fixed scripts, a bare component at index 8 (one with no `=`) is
used as the value itself instead of being skipped. -/
def afRawDebug (info : Str) : Option Str :=
  let parts := pySplit ';' info
  match parts.find? (fun p => ("AF=".data).isPrefixOf p) with
  | some p => some ((pySplit '=' p).getD 1 [])
  | none =>
      if decide (8 < parts.length) then
        some (if (parts.getD 8 []).contains '=' then (pySplit '=' (parts.getD 8 [])).getD 1 []
              else parts.getD 8 [])
      else none

/-- Allele-frequency value parsed from an INFO annotation
(`individuals_mpi_proper.py` lines 152-171): raw text from `afRaw`, truncated
at its first comma when one is present, then parsed as a float; `none` models
the skipped line. -/
def parseAF (info : Str) : Option DecFloat :=
  match afRaw info with
  | none => none
  | some raw =>
      let seg := if raw.contains ',' then (pySplit ',' raw).getD 0 [] else raw
      parseFloat seg

/-- First `|`-separated token of a genotype string. -/
def firstAllele (g : Str) : Str :=
  (pySplit '|' g).headD []

/-- Genotype classifier of `individuals_mpi_proper.py` lines 176-187: split the
genotype on `|` and keep the record when the frequency is at least one half and
the first allele is `0`, or the frequency is below one half and the first
allele is `1`. -/
def classify (genotype : Str) (af : ℚ) : Bool :=
  let elem := pySplit '|' genotype
  if elem.length = 0 then false
  else if 1 / 2 ≤ af ∧ elem.getD 0 [] = "0".data then true
  else if af < 1 / 2 ∧ elem.getD 0 [] = "1".data then true
  else false

/-- Ten to a natural power, by structural recursion (kernel-reducible). -/
def pow10 : Nat → Nat
  | 0 => 1
  | n + 1 => 10 * pow10 n

/-- Exact test `0.5 <= f` on a decimal float, by integer arithmetic:
`1/2 ≤ m / 10^e ↔ 10^e ≤ 2 m`. -/
def DecFloat.geHalf (f : DecFloat) : Bool :=
  decide ((pow10 f.exp : Int) ≤ 2 * f.mantissa)

/-- The classifier as executed inside the worker, on the decimal float value
itself; `af < 0.5` is the complement of `0.5 ≤ af` on exact values. -/
def classifyDec (genotype : Str) (af : DecFloat) : Bool :=
  let elem := pySplit '|' genotype
  if elem.length = 0 then false
  else if af.geHalf && decide (elem.getD 0 [] = "0".data) then true
  else if !af.geHalf && decide (elem.getD 0 [] = "1".data) then true
  else false

/-- Per-line body of the worker's inner loop (`individuals_mpi_proper.py`
lines 134-192) for the individual at column `col`: split on tab, skip lines
with at most `col` fields or fewer than 8 fields, extract the core fields at
positions `[1,2,3,4,7]`, parse the allele frequency from the INFO field,
rewrite the fifth core field to its string form, and return the core exactly
when the classifier keeps the record.  `none` covers every `continue` path,
including the caught `ValueError`/`IndexError`. -/
def processLine (col : Nat) (line : Str) : Option (List Str) :=
  let fields := pySplit '\t' line
  if fields.length ≤ col then none
  else
    let first := fields.getD col []
    if fields.length < 8 then none
    else
      let second := [1, 2, 3, 4, 7].map (fun j => fields.getD j [])
      match parseAF (second.getD 4 []) with
      | none => none
      | some af =>
          let core := second.set 4 (decStr af)
          if classifyDec first af then some core else none

/-- Working set of a worker (`individuals_mpi_proper.py` lines 74 and 96-104):
`ending = min(stop, total)`, slice `rawdata[max(0, counter-1) : min(ending,
len(rawdata))]` (1-based command-line range), drop comment lines, strip
trailing newlines. -/
def workingSet (rawdata : List Str) (counter stop total : Int) : List Str :=
  let ending := min stop total
  let start_idx := max 0 (counter - 1)
  let end_idx := min ending (rawdata.length : Int)
  ((pySlice rawdata start_idx end_idx).filter (fun x => !(isComment x))).map rstripNl

/-- The triple a worker sends to the merge process: output identifiers
(`filename_arr`, tag 12), per-individual counts (`count_arr`, tag 7) and the
per-individual filtered records (`chrp_data`, tag 13; a dict with keys
`0..end_data-1` in order, embedded as a list indexed by individual). -/
structure WorkerContribution where
  filename_arr : List Str
  count_arr : List Nat
  chrp_data : List (List (List Str))
deriving DecidableEq, Repr

/-- One step of the worker's inner line loop: on a kept record, append it and
bump the running count; on any skipped line, leave the accumulator unchanged. -/
def innerStep (col : Nat) (acc : List (List Str) × Nat) (line : Str) :
    List (List Str) × Nat :=
  match processLine col line with
  | some core => (acc.1 ++ [core], acc.2 + 1)
  | none => acc

/-- The worker's inner loop over its working set for one individual column:
returns that individual's filtered records and count. -/
def innerLoop (data : List Str) (col : Nat) : List (List Str) × Nat :=
  data.foldl (innerStep col) ([], 0)

/-- The worker's outer loop over individual indices (`individuals_mpi_proper.py`
lines 120-195): for each index `i` with column `i + 9` (breaking if the column
exceeds the header width), append `chr<c>.<name>` to the identifiers, run the
inner loop, and append its count and record list. -/
def workerLoop (data columndata : List Str) (c : Str) :
    List Nat → WorkerContribution → WorkerContribution
  | [], acc => acc
  | i :: rest, acc =>
      if i + 9 < columndata.length then
        workerLoop data columndata c rest
          { filename_arr :=
              acc.filename_arr ++ ["chr".data ++ c ++ '.' :: columndata.getD (i + 9) []],
            count_arr := acc.count_arr ++ [(innerLoop data (i + 9)).2],
            chrp_data := acc.chrp_data ++ [(innerLoop data (i + 9)).1] }
      else acc

/-- Pure core of `process_individuals_worker` (`individuals_mpi_proper.py`
lines 68-214; identical to `processing` in `individuals_mpi_fixed.py`): given
the raw lines of the input file, the tab-split header columns, the chromosome
label and the 1-based line range, build the contribution that is then sent to
the merge process.  File access and the MPI send are external collaborators. -/
def process_individuals_worker (rawdata columndata : List Str) (c : Str)
    (counter stop total : Int) : WorkerContribution :=
  let data := workingSet rawdata counter stop total
  workerLoop data columndata c (List.range (columndata.length - 9)) ⟨[], [], []⟩

/-- What the merge process accumulates (`individuals_mpi_proper.py` lines
227-243): identifiers and counts extended across workers, record mappings
appended one entry per worker. -/
structure MergedResult where
  all_filename_arr : List Str
  all_count_arr : List Nat
  all_chrp_data : List (List (List (List Str)))
deriving DecidableEq, Repr

/-- One receive iteration of the merge loop: `extend` the identifier and count
lists with the worker's, `append` its record mapping unflattened. -/
def mergeStep (acc : MergedResult) (wc : WorkerContribution) : MergedResult :=
  { all_filename_arr := acc.all_filename_arr ++ wc.filename_arr,
    all_count_arr := acc.all_count_arr ++ wc.count_arr,
    all_chrp_data := acc.all_chrp_data ++ [wc.chrp_data] }

/-- Pure core of `process_individuals_merger` (`individuals_mpi_proper.py`
lines 217-256): one receive per worker rank `0..num_workers-1` in increasing
order; the argument list holds, in that rank order, exactly the contribution
received from each worker. -/
def process_individuals_merger (contribs : List WorkerContribution) : MergedResult :=
  contribs.foldl mergeStep ⟨[], [], []⟩

/-- Test that a list of 1-based inclusive ranges is contiguous, starts at
`lo`, and covers everything up to `hi`. -/
def coversB : Int → List (Int × Int) → Int → Bool
  | lo, [], hi => decide (lo = hi + 1)
  | lo, (s, e) :: rest, hi =>
      decide (s = lo) && decide (lo - 1 ≤ e) && decide (e ≤ hi) && coversB (e + 1) rest hi

/-- Prefix of a string up to (excluding) its first `=`, the whole string when
it has none. -/
def beforeEq (s : Str) : Str :=
  (pySplit '=' s).headD []

/-- Prefix of a string up to (excluding) its first comma, the whole string
when it has none. -/
def beforeComma (s : Str) : Str :=
  (pySplit ',' s).headD []

/-! ## Sanity checks evaluating the embedded operations on concrete inputs -/

example : pySplit ';' ("a;;b".data) = ["a".data, [], "b".data] := by decide
example : pySplit ';' [] = [[]] := by decide
example : parseFloat ("0.30".data) = some ⟨3, 1⟩ := by decide
example : parseFloat ("10".data) = some ⟨10, 0⟩ := by decide
example : parseFloat ("0.3=x".data) = none := by decide
example : parseFloat (".".data) = none := by decide
example : parseFloat ("-.5".data) = some ⟨-5, 1⟩ := by decide
example : decStr ⟨5, 1⟩ = "0.5".data := by decide
example : decStr ⟨10, 0⟩ = "10.0".data := by decide
example : decStr ⟨-25, 2⟩ = "-0.25".data := by decide
example : decStr ⟨0, 0⟩ = "0.0".data := by decide
example : (DecFloat.toRat ⟨5, 1⟩) = 1 / 2 := by norm_num [DecFloat.toRat]
example : afRaw ("x;AF=0.3;y".data) = some ("0.3".data) := by decide
example : afRaw ("a;b;c;d;e;f;g;h;0.25".data) = none := by decide
example : afRawDebug ("a;b;c;d;e;f;g;h;0.25".data) = some ("0.25".data) := by decide
example : afRaw ("a;b;c;d;e;f;g;h;K=0.25".data) = some ("0.25".data) := by decide
example : parseAF ("AF=0.2,0.8".data) = some ⟨2, 1⟩ := by decide
example : parseAF ("AF=0.3=x".data) = some ⟨3, 1⟩ := by decide
example : classifyDec ("0|1".data) ⟨3, 1⟩ = false := by decide
example : classifyDec ("1|0".data) ⟨3, 1⟩ = true := by decide
example :
    processLine 9 ("c\ta\tb\tr\tl\tq\tf\tAF=0.5\tx\t0|1".data) =
      some ["a".data, "b".data, "r".data, "l".data, "0.5".data] := by decide
example : processLine 9 ("a\tb\tc\td\te\tf\tg".data) = none := by decide
example :
    process_individuals_worker
      ["#h\n".data, "c\ta\tb\tr\tl\tq\tf\tAF=0.5\tx\t0|1\n".data]
      ["A".data, "B".data, "C".data, "D".data, "E".data, "F".data, "G".data,
       "H".data, "I".data, "ind1".data]
      ("21".data) 1 2 2 =
      ⟨["chr21.ind1".data], [1],
        [[["a".data, "b".data, "r".data, "l".data, "0.5".data]]]⟩ := by decide
example :
    process_individuals_merger [⟨["f1".data], [1], [[]]⟩, ⟨["f2".data], [2], [[]]⟩] =
      ⟨["f1".data, "f2".data], [1, 2], [[[]], [[]]]⟩ := by decide
example : coversB 1 [(1, 2), (3, 5)] 5 = true := by decide

/-! ## Helper lemmas about the embedded Python primitives -/

theorem pySplit_ne_nil (sep : Char) (s : Str) : pySplit sep s ≠ [] := by
  cases s with
  | nil => simp [pySplit]
  | cons c cs =>
    simp only [pySplit]
    split
    · simp
    · split <;> simp

theorem pySplit_of_not_mem {sep : Char} {s : Str} (h : sep ∉ s) :
    pySplit sep s = [s] := by
  induction s with
  | nil => rfl
  | cons c cs ih =>
    have hc : ¬ c = sep := by
      rintro rfl
      exact h (List.mem_cons_self _ _)
    have hcs : sep ∉ cs := fun hm => h (List.mem_cons_of_mem _ hm)
    simp only [pySplit, if_neg hc, ih hcs]

theorem pySplit_append {sep : Char} {a : Str} (b : Str) (h : sep ∉ a) :
    pySplit sep (a ++ sep :: b) = a :: pySplit sep b := by
  induction a with
  | nil => simp [pySplit]
  | cons c a' ih =>
    have hc : ¬ c = sep := by
      rintro rfl
      exact h (List.mem_cons_self _ _)
    have ha' : sep ∉ a' := fun hm => h (List.mem_cons_of_mem _ hm)
    simp only [List.cons_append, pySplit, if_neg hc, List.append_eq, ih ha']

theorem comma_branch_eq (raw : Str) :
    (if raw.contains ',' then (pySplit ',' raw).getD 0 [] else raw) = beforeComma raw := by
  by_cases h : raw.contains ','
  · rw [if_pos h, beforeComma]
    cases hs : pySplit ',' raw with
    | nil => exact absurd hs (pySplit_ne_nil _ _)
    | cons x xs => rfl
  · rw [if_neg h, beforeComma,
      pySplit_of_not_mem (fun hm => h (List.elem_iff.mpr hm)), List.headD_cons]

theorem pow10_eq (n : Nat) : pow10 n = 10 ^ n := by
  induction n with
  | zero => rfl
  | succ n ih => rw [pow10, ih, pow_succ]; ring

theorem geHalf_iff (f : DecFloat) : f.geHalf = true ↔ 1 / 2 ≤ f.toRat := by
  have hpos : (0 : ℚ) < (10 : ℚ) ^ f.exp := by positivity
  rw [DecFloat.geHalf, DecFloat.toRat, decide_eq_true_eq, div_le_div_iff₀ (by norm_num) hpos,
    pow10_eq]
  constructor
  · intro h
    have h' : (((10 ^ f.exp : Nat) : Int) : ℚ) ≤ ((2 * f.mantissa : Int) : ℚ) := by
      exact_mod_cast h
    push_cast at h'
    linarith
  · intro h
    have h' : (((10 ^ f.exp : Nat) : Int) : ℚ) ≤ ((2 * f.mantissa : Int) : ℚ) := by
      push_cast
      linarith
    exact_mod_cast h'

theorem classifyDec_eq (g : Str) (f : DecFloat) :
    classifyDec g f = classify g f.toRat := by
  rw [classifyDec, classify]
  by_cases hg : f.geHalf = true
  · have h2 : (2⁻¹ : ℚ) ≤ f.toRat := by
      have := (geHalf_iff f).mp hg
      linarith
    have h3 : ¬ f.toRat < (2⁻¹ : ℚ) := not_lt.mpr h2
    simp [hg, h2, h3]
  · have hg' : f.geHalf = false := by simpa using hg
    have h2 : ¬ (2⁻¹ : ℚ) ≤ f.toRat := by
      intro hh
      exact hg ((geHalf_iff f).mpr (by linarith))
    have h3 : f.toRat < (2⁻¹ : ℚ) := not_le.mp h2
    simp [hg', h2, h3]

/-! ## Helper lemmas about the worker and merger loops -/

theorem innerLoop_go (col : Nat) (data : List Str) :
    ∀ (recs : List (List Str)) (cnt : Nat),
      data.foldl (innerStep col) (recs, cnt) =
        (recs ++ data.filterMap (processLine col),
         cnt + (data.filterMap (processLine col)).length) := by
  induction data with
  | nil => simp
  | cons x xs ih =>
    intro recs cnt
    simp only [List.foldl_cons, List.filterMap_cons, innerStep]
    cases h : processLine col x with
    | none => simp [ih]
    | some core => simp [ih, List.append_assoc]; omega

theorem innerLoop_eq (data : List Str) (col : Nat) :
    innerLoop data col =
      (data.filterMap (processLine col), (data.filterMap (processLine col)).length) := by
  simpa using innerLoop_go col data [] 0

theorem workerLoop_eq (data columndata : List Str) (c : Str) :
    ∀ (inds : List Nat) (acc : WorkerContribution),
      (∀ i ∈ inds, i + 9 < columndata.length) →
      workerLoop data columndata c inds acc =
        { filename_arr := acc.filename_arr ++
            inds.map (fun i => "chr".data ++ c ++ '.' :: columndata.getD (i + 9) []),
          count_arr := acc.count_arr ++
            inds.map (fun i => (data.filterMap (processLine (i + 9))).length),
          chrp_data := acc.chrp_data ++
            inds.map (fun i => data.filterMap (processLine (i + 9))) } := by
  intro inds
  induction inds with
  | nil => intro acc _; simp [workerLoop]
  | cons i rest ih =>
    intro acc hall
    have hi : i + 9 < columndata.length := hall i (List.mem_cons_self _ _)
    have hrest : ∀ j ∈ rest, j + 9 < columndata.length :=
      fun j hj => hall j (List.mem_cons_of_mem _ hj)
    rw [workerLoop, if_pos hi, ih _ hrest]
    simp [innerLoop_eq, List.append_assoc]

theorem worker_eq (rawdata columndata : List Str) (c : Str) (counter stop total : Int) :
    process_individuals_worker rawdata columndata c counter stop total =
      { filename_arr := (List.range (columndata.length - 9)).map
          (fun i => "chr".data ++ c ++ '.' :: columndata.getD (i + 9) []),
        count_arr := (List.range (columndata.length - 9)).map
          (fun i =>
            ((workingSet rawdata counter stop total).filterMap (processLine (i + 9))).length),
        chrp_data := (List.range (columndata.length - 9)).map
          (fun i => (workingSet rawdata counter stop total).filterMap (processLine (i + 9))) } := by
  rw [process_individuals_worker, workerLoop_eq]
  · simp
  · intro i hi
    have := List.mem_range.mp hi
    omega

theorem take_drop_append (l : List α) (a b : Nat) (hab : a ≤ b) :
    (l.take b).drop a ++ l.drop b = l.drop a := by
  have h1 : (l.take b).drop a = (l.drop a).take (b - a) := List.drop_take ..
  have h2 : l.drop b = (l.drop a).drop (b - a) := by
    rw [List.drop_drop]
    congr 1
    omega
  rw [h1, h2, List.take_append_drop]

theorem take_min_length (l : List α) (b : Nat) :
    l.take (min b l.length) = l.take b := by
  conv_rhs => rw [← List.take_length l, List.take_take]

theorem drop_min_of_length_le (x : List α) (a n : Nat) (hx : x.length ≤ n) :
    x.drop (min a n) = x.drop a := by
  rcases le_or_lt a n with h | h
  · rw [min_eq_left h]
  · rw [min_eq_right h.le, List.drop_eq_nil_of_le hx,
      List.drop_eq_nil_of_le (le_trans hx h.le)]

theorem enumFrom_interval {α : Type} (q : α → Bool) :
    ∀ (l : List α) (k a b : Nat),
      (((List.enumFrom k l).filter
          (fun p => decide (a ≤ p.1) && (decide (p.1 < b) && q p.2))).map Prod.snd)
        = ((l.take (b - k)).drop (a - k)).filter q := by
  intro l
  induction l with
  | nil => intro k a b; simp
  | cons x xs ih =>
    intro k a b
    have IH := ih (k + 1) a b
    by_cases hb : k < b
    · obtain ⟨m, hm⟩ : ∃ m, b - k = m + 1 := ⟨b - k - 1, by omega⟩
      have hm' : b - (k + 1) = m := by omega
      rw [hm'] at IH
      by_cases ha : a ≤ k
      · have h0 : a - k = 0 := by omega
        have h0' : a - (k + 1) = 0 := by omega
        rw [h0'] at IH
        cases hq : q x with
        | true => simp [List.enumFrom, List.filter_cons, ha, hb, hq, hm, h0, IH]
        | false => simp [List.enumFrom, List.filter_cons, ha, hb, hq, hm, h0, IH]
      · have h1 : a - k = (a - (k + 1)) + 1 := by omega
        simp [List.enumFrom, List.filter_cons, hb, ha, hm, h1, IH]
    · have hbk : b - k = 0 := by omega
      have hbk' : b - (k + 1) = 0 := by omega
      rw [hbk'] at IH
      simp [List.enumFrom, List.filter_cons, hb, hbk, IH]

theorem workingSet_eq_take_drop (rawdata : List Str) (counter stop total : Int)
    (h1 : 1 ≤ counter) (h2 : 0 ≤ stop) (h3 : 0 ≤ total) :
    workingSet rawdata counter stop total =
      (((rawdata.take (min stop total).toNat).drop (counter - 1).toNat).filter
        (fun x => !(isComment x))).map rstripNl := by
  have hA : pyIdx rawdata.length (max 0 (counter - 1)) =
      min (counter - 1).toNat rawdata.length := by
    rw [pyIdx, if_neg (by omega)]
    omega
  have hB : pyIdx rawdata.length (min (min stop total) (rawdata.length : Int)) =
      min (min stop total).toNat rawdata.length := by
    rw [pyIdx, if_neg (by omega)]
    omega
  rw [workingSet, pySlice, hA, hB, take_min_length,
    drop_min_of_length_le _ _ _ (by simp)]

theorem getD_map_range {β : Type} (n i : Nat) (f : Nat → β) (d : β) :
    ((List.range n).map f).getD i d = if i < n then f i else d := by
  rcases lt_or_ge i n with h | h
  · rw [if_pos h, List.getD_eq_getElem?_getD, List.getElem?_map, List.getElem?_range h]
    rfl
  · rw [if_neg (by omega), List.getD_eq_getElem?_getD, List.getElem?_map,
      List.getElem?_eq_none (by simpa using h)]
    rfl

theorem merger_go (contribs : List WorkerContribution) :
    ∀ acc : MergedResult,
      contribs.foldl mergeStep acc =
        { all_filename_arr := acc.all_filename_arr ++
            (contribs.map (fun w => w.filename_arr)).flatten,
          all_count_arr := acc.all_count_arr ++
            (contribs.map (fun w => w.count_arr)).flatten,
          all_chrp_data := acc.all_chrp_data ++
            contribs.map (fun w => w.chrp_data) } := by
  induction contribs with
  | nil => intro acc; simp
  | cons wc rest ih =>
    intro acc
    rw [List.foldl_cons, ih]
    simp [mergeStep, List.append_assoc]

theorem merger_eq (contribs : List WorkerContribution) :
    process_individuals_merger contribs =
      ⟨(contribs.map (fun w => w.filename_arr)).flatten,
       (contribs.map (fun w => w.count_arr)).flatten,
       contribs.map (fun w => w.chrp_data)⟩ := by
  rw [process_individuals_merger, merger_go]
  simp

theorem cover_flatten (l : List Str) (f : Str → Option (List Str)) :
    ∀ (ranges : List (Int × Int)) (lo : Int), 1 ≤ lo →
      coversB lo ranges (l.length : Int) = true →
      (ranges.map (fun r =>
          (workingSet l r.1 r.2 (l.length : Int)).filterMap f)).flatten
        = (((l.drop (lo - 1).toNat).filter (fun x => !(isComment x))).map rstripNl).filterMap
            f := by
  intro ranges
  induction ranges with
  | nil =>
    intro lo hlo hcov
    simp only [coversB, decide_eq_true_eq] at hcov
    have hd : (lo - 1).toNat = l.length := by omega
    simp [hd]
  | cons r rest ih =>
    intro lo hlo hcov
    obtain ⟨s, e⟩ := r
    simp only [coversB, Bool.and_eq_true, decide_eq_true_eq] at hcov
    obtain ⟨⟨⟨hs, hse⟩, hehi⟩, hrest⟩ := hcov
    subst hs
    rw [List.map_cons, List.flatten_cons, ih (e + 1) (by omega) hrest,
      workingSet_eq_take_drop _ _ _ _ hlo (by omega) (by omega)]
    have hmin : (min e (l.length : Int)).toNat = e.toNat := by omega
    have hd : (e + 1 - 1).toNat = e.toNat := by omega
    rw [hmin, hd, ← List.filterMap_append, ← List.map_append, ← List.filter_append,
      take_drop_append _ _ _ (by omega)]

theorem flatten_map_nil {α β : Type} (l : List α) :
    (l.map (fun _ => ([] : List β))).flatten = [] := by
  induction l with
  | nil => rfl
  | cons x xs ih => simp [ih]

/-! ## The claims -/

/-- C1: for every genotype string `g` and allele frequency `f`, `classify g f`
is a pure function of its arguments, and keeps the record exactly when
`1/2 ≤ f` and the first `|`-separated token of `g` is `0`, or `f < 1/2` and
that token is `1`; every other case — including an empty first token — is
discarded. -/
theorem classify_pure_rule (g : Str) (f : ℚ) :
    classify g f = classify g f ∧
    (classify g f = true ↔
      ((1 / 2 ≤ f ∧ firstAllele g = "0".data) ∨
        (f < 1 / 2 ∧ firstAllele g = "1".data))) := by
  refine ⟨rfl, ?_⟩
  rw [classify, firstAllele]
  have hne := pySplit_ne_nil '|' g
  cases hs : pySplit '|' g with
  | nil => exact absurd hs hne
  | cons e0 rest =>
    simp only [List.length_cons, List.getD_cons_zero, List.headD_cons,
      Nat.succ_ne_zero, if_false]
    split_ifs with hA hB
    · simpa using Or.inl hA
    · simpa using Or.inr hB
    · simp only [hA, hB]
      simp [hA, hB]

/-- C6 counterexample: a header that splits into only 3 tab-separated columns
is not fatal; the worker proceeds and produces a complete (empty)
contribution, contradicting the claimed `MalformedHeader` failure. -/
theorem short_header_cex :
    (["A".data, "B".data, "C".data] : List Str).length < 9 ∧
    process_individuals_worker ["x\ty".data] ["A".data, "B".data, "C".data]
        ("1".data) 1 1 1 = ⟨[], [], []⟩ := by
  constructor
  · decide
  · decide

/-- C6 (amended): a header with fewer than 9 tab-separated columns yields zero
addressable individuals; no error is raised, and the worker proceeds and
produces a contribution with empty identifier, count and record lists. -/
theorem short_header_empty (rawdata columndata : List Str) (c : Str)
    (counter stop total : Int) (h : columndata.length < 9) :
    process_individuals_worker rawdata columndata c counter stop total = ⟨[], [], []⟩ := by
  rw [process_individuals_worker]
  have h0 : columndata.length - 9 = 0 := by omega
  rw [h0]
  rfl

/-- C6 witness: the amended statement at a concrete 3-column header. -/
theorem short_header_witness :
    (["A".data, "B".data, "C".data] : List Str).length < 9 ∧
    process_individuals_worker [] ["A".data, "B".data, "C".data] ("2".data) 1 0 0 =
      ⟨[], [], []⟩ :=
  ⟨by decide, short_header_empty _ _ _ _ _ _ (by decide)⟩

/-- C8: a data line with insufficient fields for the requested individual
column or for the core fields is skipped: `processLine` yields nothing, and
inserting such a line anywhere in the working set leaves the individual's
record list and count unchanged — no exception propagates. -/
theorem malformed_line_skipped (data1 data2 : List Str) (col : Nat) (line : Str)
    (h : (pySplit '\t' line).length ≤ col ∨ (pySplit '\t' line).length < 8) :
    processLine col line = none ∧
    innerLoop (data1 ++ line :: data2) col = innerLoop (data1 ++ data2) col := by
  have hnone : processLine col line = none := by
    by_cases hcol : (pySplit '\t' line).length ≤ col
    · simp [processLine, hcol]
    · have h8 : (pySplit '\t' line).length < 8 := h.resolve_left hcol
      simp [processLine, hcol, h8]
  refine ⟨hnone, ?_⟩
  simp [innerLoop_eq, List.filterMap_append, List.filterMap_cons, hnone]

/-- C8 witness: a line with only 7 tab-separated fields, inserted into a
singleton working set for individual column 9, contributes nothing. -/
theorem malformed_line_skipped_witness :
    ((pySplit '\t' ("a\tb\tc\td\te\tf\tg".data)).length ≤ 9 ∨
      (pySplit '\t' ("a\tb\tc\td\te\tf\tg".data)).length < 8) ∧
    (processLine 9 ("a\tb\tc\td\te\tf\tg".data) = none ∧
      innerLoop ([] ++ ("a\tb\tc\td\te\tf\tg".data) :: []) 9 = innerLoop ([] ++ []) 9) :=
  ⟨by decide, malformed_line_skipped [] [] 9 _ (by decide)⟩

/-- C9: the merge process receives exactly one contribution per worker, in
increasing rank order; it concatenates the identifier lists and the count
lists across workers in that order, and collects the per-individual record
mappings as one entry per worker, without flattening them. -/
theorem merger_rank_order (contribs : List WorkerContribution) :
    process_individuals_merger contribs =
      ⟨(contribs.map (fun w => w.filename_arr)).flatten,
        (contribs.map (fun w => w.count_arr)).flatten,
        contribs.map (fun w => w.chrp_data)⟩ ∧
    (process_individuals_merger contribs).all_chrp_data.length = contribs.length := by
  refine ⟨merger_eq contribs, ?_⟩
  rw [merger_eq]
  simp

/-- C10: a worker's three payloads are parallel-indexed: identifiers, counts
and record lists all have exactly one entry per processed individual, and
each individual's count equals the length of its filtered-record list. -/
theorem contribution_parallel (rawdata columndata : List Str) (c : Str)
    (counter stop total : Int) :
    (process_individuals_worker rawdata columndata c counter stop total).filename_arr.length
        = columndata.length - 9 ∧
    (process_individuals_worker rawdata columndata c counter stop total).count_arr.length
        = columndata.length - 9 ∧
    (process_individuals_worker rawdata columndata c counter stop total).chrp_data.length
        = columndata.length - 9 ∧
    ∀ i, (process_individuals_worker rawdata columndata c counter stop total).count_arr.getD i 0
        = ((process_individuals_worker rawdata columndata c counter stop
            total).chrp_data.getD i []).length := by
  rw [worker_eq]
  refine ⟨by simp, by simp, by simp, ?_⟩
  intro i
  rw [getD_map_range, getD_map_range]
  by_cases hi : i < columndata.length - 9
  · rw [if_pos hi, if_pos hi]
  · rw [if_neg hi, if_neg hi]
    rfl

/-- C4: for a 1-based inclusive range `[start, stop]` with upper bound
`total`, the worker's working set is exactly the non-comment lines whose
1-based index in the file lies in `[start, min stop total]` and which are
actually present — so a range extending beyond end-of-file silently yields
fewer lines, and the function is total (never an error). -/
theorem worker_range_clip (rawdata : List Str) (start stop total : Int)
    (h1 : 1 ≤ start) (h2 : 0 ≤ stop) (h3 : 0 ≤ total) :
    workingSet rawdata start stop total =
      ((rawdata.enum.filter (fun p =>
          decide (start ≤ (p.1 : Int) + 1) &&
            (decide ((p.1 : Int) + 1 ≤ min stop total) && !(isComment p.2)))).map
        Prod.snd).map rstripNl := by
  rw [workingSet_eq_take_drop _ _ _ _ h1 h2 h3]
  have hcong : ∀ p : Nat × Str, p ∈ rawdata.enum →
      (decide (start ≤ (p.1 : Int) + 1) &&
        (decide ((p.1 : Int) + 1 ≤ min stop total) && !(isComment p.2)))
      = (decide ((start - 1).toNat ≤ p.1) &&
        (decide (p.1 < (min stop total).toNat) && !(isComment p.2))) := by
    intro p _
    have e1 : decide (start ≤ (p.1 : Int) + 1) = decide ((start - 1).toNat ≤ p.1) :=
      decide_eq_decide.mpr (by omega)
    have e2 : decide ((p.1 : Int) + 1 ≤ min stop total)
        = decide (p.1 < (min stop total).toNat) :=
      decide_eq_decide.mpr (by omega)
    rw [e1, e2]
  rw [List.filter_congr hcong]
  have hint := enumFrom_interval (fun x => !(isComment x)) rawdata 0 (start - 1).toNat
    (min stop total).toNat
  simp only [Nat.sub_zero] at hint
  rw [List.enum, hint]

/-- C4 witness: a 5-line file with comments, range `[2, 9]` and claimed total
4: the requested range extends past end-of-file and yields just the two
non-comment lines at positions 2 and 3, with no error. -/
theorem worker_range_clip_witness :
    (1 : Int) ≤ 2 ∧ (0 : Int) ≤ 9 ∧ (0 : Int) ≤ 4 ∧
    workingSet ["#h\n".data, "a\n".data, "b".data, "#c".data, "d".data] 2 9 4 =
      (((["#h\n".data, "a\n".data, "b".data, "#c".data, "d".data] : List Str).enum.filter
          (fun p => decide ((2 : Int) ≤ (p.1 : Int) + 1) &&
            (decide ((p.1 : Int) + 1 ≤ min (9 : Int) 4) && !(isComment p.2)))).map
        Prod.snd).map rstripNl :=
  ⟨by decide, by decide, by decide,
    worker_range_clip _ 2 9 4 (by decide) (by decide) (by decide)⟩

/-- C7: whenever `processLine` keeps a record, the returned core has exactly
5 elements, drawn from source columns 1, 2, 3, 4 and 7 in that order, with
the fifth element overwritten by the decimal string form of the allele
frequency parsed from column 7. -/
theorem core_shape (col : Nat) (line : Str) (core : List Str)
    (h : processLine col line = some core) :
    core.length = 5 ∧
    ∃ af, parseAF ((pySplit '\t' line).getD 7 []) = some af ∧
      core = [(pySplit '\t' line).getD 1 [], (pySplit '\t' line).getD 2 [],
        (pySplit '\t' line).getD 3 [], (pySplit '\t' line).getD 4 [], decStr af] := by
  by_cases hcol : (pySplit '\t' line).length ≤ col
  · simp [processLine, hcol] at h
  · by_cases h8 : (pySplit '\t' line).length < 8
    · simp [processLine, hcol, h8] at h
    · simp only [processLine, if_neg hcol, if_neg h8] at h
      cases hp : parseAF (([1, 2, 3, 4, 7].map
          (fun j => (pySplit '\t' line).getD j [])).getD 4 []) with
      | none => rw [hp] at h; simp at h
      | some af =>
        rw [hp] at h
        simp only [List.map_cons, List.map_nil, List.getD_cons_succ,
          List.getD_cons_zero] at hp h
        by_cases hc : classifyDec ((pySplit '\t' line).getD col []) af = true
        · rw [if_pos hc] at h
          refine ⟨?_, af, hp, ?_⟩ <;> simp [← Option.some_inj.mp h, List.set]
        · rw [if_neg hc] at h
          simp at h

theorem contains_eq_true {l : Str} {a : Char} (h : a ∈ l) : l.contains a = true :=
  List.elem_iff.mpr h

theorem contains_eq_false {l : Str} {a : Char} (h : a ∉ l) : l.contains a = false := by
  cases hco : l.contains a
  · rfl
  · exact absurd (List.elem_iff.mp hco) h

theorem getD_zero_eq_headD (l : List Str) : l.getD 0 [] = l.headD [] := by
  cases l with
  | nil => rfl
  | cons a t => rfl

theorem isPrefixOf_ex : ∀ {l p : Str}, l.isPrefixOf p = true → ∃ v, p = l ++ v := by
  intro l
  induction l with
  | nil =>
    intro p _
    exact ⟨p, rfl⟩
  | cons c cs ih =>
    intro p h
    cases p with
    | nil => simp [List.isPrefixOf] at h
    | cons d ds =>
      simp only [List.isPrefixOf, Bool.and_eq_true, beq_iff_eq] at h
      obtain ⟨rfl, h2⟩ := h
      obtain ⟨v, rfl⟩ := ih h2
      exact ⟨v, rfl⟩

/-- C2 counterexample: on the annotation `AF=0.3=x`, whose single component
has the form `AF=<value>` with value `0.3=x`, the code parses frequency `0.3`
(text between the first and second `=`), while the claimed behaviour — float
of the value's first comma-segment — would fail the numeric parse and skip
the line. -/
theorem af_first_value_cex :
    ("AF=0.3=x".data : Str) = "AF=".data ++ "0.3=x".data ∧
    parseAF ("AF=0.3=x".data) = some ⟨3, 1⟩ ∧
    parseFloat (beforeComma ("0.3=x".data)) = none := by
  refine ⟨by decide, by decide, by decide⟩

/-- C2 (amended): when the annotation has a `;`-separated component starting
with `AF=`, the parsed frequency is the float of the first such component's
value truncated at its first `=` and then at its first comma, independent of
the other components; failure of that numeric parse skips the line. -/
theorem af_first_component (info p : Str)
    (hfind : (pySplit ';' info).find? (fun q => ("AF=".data).isPrefixOf q) = some p) :
    parseAF info = parseFloat (beforeComma (beforeEq (p.drop 3))) := by
  have hpre : (("AF=".data).isPrefixOf p) = true := List.find?_some hfind
  obtain ⟨v, hv⟩ := isPrefixOf_ex hpre
  have hAF : ("AF=".data : Str) = ['A', 'F', '='] := rfl
  have hp3 : p.drop 3 = v := by
    rw [hv, hAF]
    rfl
  have hsplit : pySplit '=' p = ['A', 'F'] :: pySplit '=' v := by
    rw [hv, hAF]
    have h := @pySplit_append '=' ['A', 'F'] v (by decide)
    simpa using h
  simp only [parseAF, afRaw, hfind]
  rw [hsplit, hp3]
  simp only [List.getD_cons_succ]
  rw [comma_branch_eq, beforeEq, getD_zero_eq_headD]

/-- C2 witness: the amended statement at a concrete annotation whose `AF=`
component sits between unrelated components. -/
theorem af_first_component_witness :
    ((pySplit ';' ("x;AF=0.25;y".data)).find? (fun q => ("AF=".data).isPrefixOf q) =
        some ("AF=0.25".data)) ∧
    parseAF ("x;AF=0.25;y".data) =
      parseFloat (beforeComma (beforeEq (("AF=0.25".data : Str).drop 3))) :=
  ⟨by decide, af_first_component _ _ (by decide)⟩

/-- C5 counterexample: with no `AF=` component and a bare (equals-free),
perfectly parseable value `0.25` at component index 8, the code skips the
line instead of using the bare value as claimed. -/
theorem af_fallback_cex :
    ((pySplit ';' ("a;b;c;d;e;f;g;h;0.25".data)).find?
        (fun q => ("AF=".data).isPrefixOf q) = none) ∧
    (pySplit ';' ("a;b;c;d;e;f;g;h;0.25".data)).getD 8 [] = "0.25".data ∧
    parseFloat ("0.25".data) = some ⟨25, 2⟩ ∧
    parseAF ("a;b;c;d;e;f;g;h;0.25".data) = none := by
  refine ⟨by decide, by decide, by decide, by decide⟩

/-- C5 (amended): when no component starts with `AF=`, the parser falls back
to the component at index 8 only when it exists and has the form
`key=value`; the value (between the first and second `=`, truncated at its
first comma) is then float-parsed.  A missing 9th component, or a bare one
with no `=`, skips the line. -/
theorem af_fallback_rule (info : Str)
    (hnone : (pySplit ';' info).find? (fun q => ("AF=".data).isPrefixOf q) = none) :
    ((pySplit ';' info).length ≤ 8 → parseAF info = none) ∧
    ('=' ∉ (pySplit ';' info).getD 8 [] → parseAF info = none) ∧
    (∀ k v, '=' ∉ k → (pySplit ';' info).getD 8 [] = k ++ '=' :: v →
      parseAF info = parseFloat (beforeComma (beforeEq v))) := by
  refine ⟨?_, ?_, ?_⟩
  · intro hlen
    have hd : decide (8 < (pySplit ';' info).length) = false := by
      simp
      omega
    simp only [parseAF, afRaw, hnone, hd, Bool.false_and]
    rfl
  · intro hmem
    simp only [parseAF, afRaw, hnone, contains_eq_false hmem, Bool.and_false]
    rfl
  · intro k v hk hget
    have hlen : 8 < (pySplit ';' info).length := by
      by_contra hle
      push_neg at hle
      rw [List.getD_eq_default _ _ hle] at hget
      simp at hget
    have hmem : '=' ∈ (pySplit ';' info).getD 8 [] := by
      rw [hget]
      exact List.mem_append_right _ (List.mem_cons_self _ _)
    have hd : decide (8 < (pySplit ';' info).length) = true := by simp [hlen]
    simp only [parseAF, afRaw, hnone, hd, contains_eq_true hmem, Bool.and_self, if_true]
    rw [hget, pySplit_append _ hk]
    simp only [List.getD_cons_succ]
    rw [comma_branch_eq, beforeEq, getD_zero_eq_headD]

/-- C5 witness: the amended statement at a concrete annotation whose 9th
component is `AFX=0.25` (a `key=value` that does not start with `AF=`). -/
theorem af_fallback_rule_witness :
    ((pySplit ';' ("a;b;c;d;e;f;g;h;AFX=0.25".data)).find?
        (fun q => ("AF=".data).isPrefixOf q) = none) ∧
    ('=' ∉ ("AFX".data : Str)) ∧
    parseAF ("a;b;c;d;e;f;g;h;AFX=0.25".data) =
      parseFloat (beforeComma (beforeEq ("0.25".data))) :=
  ⟨by decide, by decide,
    (af_fallback_rule _ (by decide)).2.2 ("AFX".data) ("0.25".data) (by decide) (by decide)⟩

/-- C7 witness: a concrete kept line for individual column 9. -/
theorem core_shape_witness :
    (["a".data, "b".data, "r".data, "l".data, "0.5".data] : List Str).length = 5 ∧
    ∃ af, parseAF ((pySplit '\t' ("c\ta\tb\tr\tl\tq\tf\tAF=0.5\tx\t0|1".data)).getD 7 [])
        = some af ∧
      (["a".data, "b".data, "r".data, "l".data, "0.5".data] : List Str) =
        [(pySplit '\t' ("c\ta\tb\tr\tl\tq\tf\tAF=0.5\tx\t0|1".data)).getD 1 [],
          (pySplit '\t' ("c\ta\tb\tr\tl\tq\tf\tAF=0.5\tx\t0|1".data)).getD 2 [],
          (pySplit '\t' ("c\ta\tb\tr\tl\tq\tf\tAF=0.5\tx\t0|1".data)).getD 3 [],
          (pySplit '\t' ("c\ta\tb\tr\tl\tq\tf\tAF=0.5\tx\t0|1".data)).getD 4 [],
          decStr af] :=
  core_shape 9 _ _ (by decide)

/-- C3: for a partition of the file's line range into contiguous, disjoint
ranges that together cover it, running one worker per range and merging
yields, for each individual, per-worker record lists whose rank-order
concatenation equals the record list of a single worker covering the whole
file — so the union of the per-worker filtered-record sets, identified by
originating line, is exactly the single-worker set. -/
theorem partition_merge (rawdata columndata : List Str) (c : Str)
    (ranges : List (Int × Int)) (i : Nat)
    (hcov : coversB 1 ranges (rawdata.length : Int) = true) :
    ((process_individuals_merger (ranges.map (fun r =>
        process_individuals_worker rawdata columndata c r.1 r.2
          (rawdata.length : Int)))).all_chrp_data.map (fun m => m.getD i [])).flatten
      = (process_individuals_worker rawdata columndata c 1 (rawdata.length : Int)
          (rawdata.length : Int)).chrp_data.getD i [] := by
  rw [merger_eq]
  simp only [List.map_map, Function.comp_def]
  by_cases hi : i < columndata.length - 9
  · have hws : ∀ s e : Int,
        (process_individuals_worker rawdata columndata c s e
            (rawdata.length : Int)).chrp_data.getD i []
          = (workingSet rawdata s e (rawdata.length : Int)).filterMap
              (processLine (i + 9)) := by
      intro s e
      rw [worker_eq, getD_map_range, if_pos hi]
    simp only [hws]
    rw [cover_flatten rawdata (processLine (i + 9)) ranges 1 (by norm_num) hcov,
      workingSet_eq_take_drop _ _ _ _ (by norm_num) (by positivity) (by positivity)]
    have e1 : ((1 : Int) - 1).toNat = 0 := by norm_num
    have e2 : (min (rawdata.length : Int) (rawdata.length : Int)).toNat = rawdata.length := by
      omega
    rw [e1, e2]
    simp
  · have hws0 : ∀ s e : Int,
        (process_individuals_worker rawdata columndata c s e
            (rawdata.length : Int)).chrp_data.getD i [] = [] := by
      intro s e
      rw [worker_eq, getD_map_range, if_neg hi]
    simp only [hws0]
    exact flatten_map_nil ranges

/-- C3 witness: a two-line file split into the ranges `[1,1]` and `[2,2]`,
checked for individual 0 of a 10-column header. -/
theorem partition_merge_witness :
    coversB 1 [((1 : Int), (1 : Int)), ((2 : Int), (2 : Int))]
        (((["x\t1\t2\t3\t4\t5\t6\tAF=0.5\tz\t0|0\n".data,
            "x\ta\tb\tc\td\te\tf\tAF=0.1\tz\t1|1".data] : List Str).length : Int)) = true ∧
    ((process_individuals_merger ([((1 : Int), (1 : Int)), ((2 : Int), (2 : Int))].map
        (fun r => process_individuals_worker
          ["x\t1\t2\t3\t4\t5\t6\tAF=0.5\tz\t0|0\n".data,
           "x\ta\tb\tc\td\te\tf\tAF=0.1\tz\t1|1".data]
          ["c0".data, "c1".data, "c2".data, "c3".data, "c4".data, "c5".data,
           "c6".data, "c7".data, "c8".data, "i1".data]
          ("7".data) r.1 r.2
          (((["x\t1\t2\t3\t4\t5\t6\tAF=0.5\tz\t0|0\n".data,
              "x\ta\tb\tc\td\te\tf\tAF=0.1\tz\t1|1".data] : List Str).length :
            Int))))).all_chrp_data.map (fun m => m.getD 0 [])).flatten
      = (process_individuals_worker
          ["x\t1\t2\t3\t4\t5\t6\tAF=0.5\tz\t0|0\n".data,
           "x\ta\tb\tc\td\te\tf\tAF=0.1\tz\t1|1".data]
          ["c0".data, "c1".data, "c2".data, "c3".data, "c4".data, "c5".data,
           "c6".data, "c7".data, "c8".data, "i1".data]
          ("7".data) 1
          (((["x\t1\t2\t3\t4\t5\t6\tAF=0.5\tz\t0|0\n".data,
              "x\ta\tb\tc\td\te\tf\tAF=0.1\tz\t1|1".data] : List Str).length : Int))
          (((["x\t1\t2\t3\t4\t5\t6\tAF=0.5\tz\t0|0\n".data,
              "x\ta\tb\tc\td\te\tf\tAF=0.1\tz\t1|1".data] : List Str).length :
            Int))).chrp_data.getD 0 [] :=
  ⟨by decide, partition_merge _ _ _ _ 0 (by decide)⟩

end Genome
